import Mathlib

/-!
Verification development for the case-conversion library.

The parsing pipeline of the library lives in three files:
`case_conversion/parser.py` (present in the repository),
`case_conversion/types.py` and `case_conversion/utils.py` (declared and
imported by the parser and exercised by the test-suite, but their bodies are
not part of the repository snapshot).  Definitions ported from present files
carry a doc comment naming the source; definitions for the two missing files
are modelled from the specification, with doc comments starting with
`Modelled from the spec:`.

Strings are modelled through their character lists (`String.data`).  Character
classification (upper, lower, alpha) follows the ASCII ranges, matching the
basic-latin behaviour of the Python string predicates on the ASCII inputs the
claims quantify over.
-/

namespace CaseConversion

/-- Modelled from the spec: the `Case` enumeration of `case_conversion/types.py`
(missing from the snapshot).  Section 3 of the spec: case classification is
enumerated as LOWER, UPPER, CAMEL, PASCAL, MIXED, UNKNOWN. -/
inductive Case where
  | UNKNOWN
  | UPPER
  | LOWER
  | CAMEL
  | PASCAL
  | MIXED
deriving DecidableEq

/-- Modelled from the spec: the single error kind `InvalidAcronymError` of
`case_conversion/types.py` (missing from the snapshot), raised when a supplied
acronym candidate contains any character that is not a letter.  The payload
records the offending candidate. -/
inductive InvalidAcronymError where
  | invalidAcronym : String → InvalidAcronymError
deriving DecidableEq

/-- Uppercase every character, ASCII model of Python `str.upper`. -/
def str_toUpper (s : String) : String :=
  String.mk (s.data.map Char.toUpper)

/-- Lowercase every character, ASCII model of Python `str.lower`. -/
def str_toLower (s : String) : String :=
  String.mk (s.data.map Char.toLower)

/-- Model of Python `str.capitalize`: first character uppercased, the rest
lowercased. -/
def capitalize (s : String) : String :=
  match s.data with
  | [] => String.mk []
  | c :: cs => String.mk (c.toUpper :: cs.map Char.toLower)

/-- Model of Python `str.isupper`: at least one cased character and no
lowercase character (ASCII letters are the cased characters here). -/
def string_isupper (s : String) : Bool :=
  s.data.any Char.isUpper && !(s.data.any Char.isLower)

/-- Model of Python `str.islower`: at least one cased character and no
uppercase character. -/
def string_islower (s : String) : Bool :=
  s.data.any Char.isLower && !(s.data.any Char.isUpper)

/-- Does the word start with an uppercase letter? -/
def startsUpper (w : String) : Bool :=
  match w.data with
  | [] => false
  | c :: _ => c.isUpper

/-- Does the word start with a lowercase letter? -/
def startsLower (w : String) : Bool :=
  match w.data with
  | [] => false
  | c :: _ => c.isLower

/-- Modelled from the spec: the separator alphabet of the missing segmenter in
`case_conversion/utils.py`.  Glossary of the spec: a separator is one of
space, underscore, dash, dot, slash, backslash. -/
def isSep (c : Char) : Bool :=
  c = ' ' || c = '_' || c = '-' || c = '.' || c = '/' || c = '\\'

/-- Modelled from the spec: the character scan of `segment_string` from the
missing `case_conversion/utils.py` (section 4.1 of the spec).  The first
argument is the current word fragment, kept in reverse order; the second is
the remaining input.  Explicit separators terminate the current word and
insert a placeholder (`none`).  A boundary is inferred at a transition from a
lowercase letter to an uppercase letter.  Consecutive uppercase letters stay
in one fragment; when such a fragment of length at least two is followed by a
lowercase letter, its last letter starts the following word (this is what
splits `helloHTMLWorld` into `hello`, `HTML`, `World`, as in the concrete
scenarios of section 8).  Other characters (digits and so on) attach to the
adjacent word. -/
def segGo : List Char → List Char → List (Option String)
  | cur, [] =>
    if cur.isEmpty then [] else [some (String.mk cur.reverse)]
  | cur, c :: cs =>
    if isSep c then
      (if cur.isEmpty then [] else [some (String.mk cur.reverse)]) ++
        (none :: segGo [] cs)
    else
      match cur with
      | [] => segGo [c] cs
      | p :: t =>
        if p.isLower && c.isUpper then
          some (String.mk (p :: t).reverse) :: segGo [c] cs
        else if p.isUpper && c.isLower && !t.isEmpty then
          some (String.mk t.reverse) :: segGo [c, p] cs
        else
          segGo (c :: p :: t) cs

/-- Modelled from the spec: the separator detected by `segment_string` of the
missing `case_conversion/utils.py`.  Section 4.1: the first separator
encountered establishes the detected separator; the empty string if none. -/
def detected_separator (s : String) : String :=
  match s.data.find? (fun c => isSep c) with
  | some c => String.mk [c]
  | none => ""

/-- Modelled from the spec: `segment_string` of the missing
`case_conversion/utils.py`.  Returns the token sequence (word fragments
interleaved with `none` separator placeholders), the detected separator, and
the flag telling whether the entire input was uppercase (section 4.1 of the
spec; `parser.py` line 51 unpacks exactly this triple). -/
def segment_string (s : String) : List (Option String) × String × Bool :=
  (segGo [] s.data, detected_separator s, string_isupper s)

/-- Modelled from the spec: `is_upper` of the missing
`case_conversion/utils.py`, used by the letter-run detector in `parser.py`
line 72; Python `str.isupper` semantics on a fragment. -/
def is_upper (w : String) : Bool :=
  string_isupper w

/-- The test `word is not None and is_upper(word)` of `parser.py` line 72. -/
def optUpper : Option String → Bool
  | some w => is_upper w
  | none => false

/-- Model of Python `sep.join(items)`. -/
def joinWith (sep : String) : List String → String
  | [] => ""
  | [x] => x
  | x :: y :: xs => x ++ sep ++ joinWith sep (y :: xs)

/-- Modelled from the spec: `normalize_word` of the missing
`case_conversion/utils.py` (section 4.2 step 4 of the spec): a fragment whose
uppercased form is one of the sanitized acronym candidates normalizes to that
candidate, every other fragment normalizes to its capitalized form. -/
def normalize_word (w : String) (acronyms : List String) : String :=
  if acronyms.contains (str_toUpper w) then str_toUpper w else capitalize w

/-- Modelled from the spec: `sanitize_acronyms` of the missing
`case_conversion/utils.py` (sections 6 and 7 of the spec): uppercase each
entry, verify it contains only letters, error otherwise. -/
def sanitize_acronyms : List String → Except InvalidAcronymError (List String)
  | [] => .ok []
  | a :: rest =>
    if a.data.all Char.isAlpha then
      match sanitize_acronyms rest with
      | .ok r => .ok (str_toUpper a :: r)
      | .error e => .error e
    else
      .error (.invalidAcronym a)

/-- Modelled from the spec: `simple_acronym_detection` of the missing
`case_conversion/utils.py` (section 4.2 step 2, simple mode): the run of
fragments at positions in `[s, i)` is merged into a single word; the returned
index is the position of the merged word (pinned by
`test_simple_acronym_detection` in `src/tests/test_utils.py`).  The Python
function mutates the word list and returns the index; here it returns the
pair of index and updated list. -/
def simple_acronym_detection (s i : Nat) (words : List (Option String)) :
    Nat × List (Option String) :=
  let run := ((words.drop s).take (i - s)).filterMap id
  (s, words.take s ++ [some (joinWith "" run)] ++ words.drop i)

/-- Choose the longest entry of a candidate list, keeping the earliest among
entries of equal length. -/
def pickLongest : List (List Char) → Option (List Char)
  | [] => none
  | x :: xs =>
    match pickLongest xs with
    | none => some x
    | some y => if x.length < y.length then some y else some x

/-- Modelled from the spec: the longest-match-wins candidate lookup of
advanced acronym detection (section 4.2 step 2 of the spec): the longest
nonempty acronym candidate that matches at the front of the letter run, if
any. -/
def bestAcronymMatch (acr : List String) (cs : List Char) : Option (List Char) :=
  pickLongest ((acr.map String.data).filter (fun a => !a.isEmpty && a.isPrefixOf cs))

/-- Modelled from the spec: the decomposition of an uppercase letter run by
advanced acronym detection, fuelled by the run length.  A matched candidate
prefix becomes one piece; a letter with no match at its position becomes a
single-letter piece (the per-letter fallback is pinned by
`test_advanced_acronym_detection` in `src/tests/test_utils.py`). -/
def acronymSplitF (acr : List String) : Nat → List Char → List (List Char)
  | 0, _ => []
  | _ + 1, [] => []
  | fuel + 1, c :: cs =>
    match bestAcronymMatch acr (c :: cs) with
    | some a => a :: acronymSplitF acr fuel ((c :: cs).drop a.length)
    | none => [c] :: acronymSplitF acr fuel cs

/-- Decomposition of a letter run into acronym pieces and leftover letters. -/
def acronymSplit (acr : List String) (cs : List Char) : List (List Char) :=
  acronymSplitF acr cs.length cs

/-- Modelled from the spec: `advanced_acronym_detection` of the missing
`case_conversion/utils.py` (section 4.2 step 2, advanced mode): the letters of
the run at positions `[s, i)` are joined, decomposed against the candidate
list, and the resulting pieces replace the run in the word list; the returned
index is the position of the last inserted piece (pinned by
`test_advanced_acronym_detection` in `src/tests/test_utils.py`). -/
def advanced_acronym_detection (s i : Nat) (words : List (Option String))
    (acr : List String) : Nat × List (Option String) :=
  let run := ((words.drop s).take (i - s)).filterMap id
  let acstr := (joinWith "" run).data
  let pieces := acronymSplit acr acstr
  (s + pieces.length - 1,
   words.take s ++ pieces.map (fun p => some (String.mk p)) ++ words.drop i)

/-- The letter-run detector loop of `parse_case`, `parser.py` lines 62 to 78,
fuelled (the Python `while` loop strictly decreases `len(words) - i` at every
iteration, so any fuel of at least the initial list length reproduces it).
State: `i` is the scan index; `r` is the length of the run of uppercase
fragments ending just before `i` (the Python code stores the start index
`s = i - r`, with `r = 0` for its `s is None`).  An uppercase fragment extends
the run; any other element closes a pending run, which is resolved by the
selected detection function, and the scan resumes at the returned index plus
two (the Python `i = check_acronym(...) + 1` followed by `i += 1`). -/
def letterRunLoopF (acr : List String) (advanced : Bool) :
    Nat → List (Option String) → Nat → Nat → List (Option String)
  | 0, words, _, _ => words
  | fuel + 1, words, i, r =>
    if i < words.length then
      if optUpper (words.getD i none) then
        letterRunLoopF acr advanced fuel words (i + 1) (r + 1)
      else if r = 0 then
        letterRunLoopF acr advanced fuel words (i + 1) 0
      else
        let res :=
          if advanced then advanced_acronym_detection (i - r) i words acr
          else simple_acronym_detection (i - r) i words
        letterRunLoopF acr advanced fuel res.2 (res.1 + 2) 0
    else words

/-- The letter-run detector of `parser.py`, started at index 0 with no pending
run and enough fuel. -/
def letterRunLoop (acr : List String) (advanced : Bool)
    (words : List (Option String)) : List (Option String) :=
  letterRunLoopF acr advanced (words.length + 1) words 0 0

/-- Modelled from the spec: `determine_case` of the missing
`case_conversion/utils.py` (section 4.2 step 5 of the spec, pinned by
`test_determine_case` in `src/tests/test_utils.py`): zero words give UNKNOWN;
otherwise a fully uppercase original string gives UPPER and a fully lowercase
one gives LOWER; otherwise a lowercase-starting first word with every later
word starting uppercase gives CAMEL, every word starting uppercase gives
PASCAL, and anything else gives MIXED.  The first argument is the
`was_upper` flag computed by the segmenter, as passed by `parser.py`
line 84. -/
def determine_case (was_upper : Bool) (words : List String) (string : String) :
    Case :=
  if words.isEmpty then Case.UNKNOWN
  else if was_upper then Case.UPPER
  else if string_islower string then Case.LOWER
  else
    match words with
    | [] => Case.UNKNOWN
    | w :: rest =>
      if startsLower w && rest.all startsUpper then Case.CAMEL
      else if startsUpper w && rest.all startsUpper then Case.PASCAL
      else Case.MIXED

/-- The `Word` dataclass of `parser.py`: original fragment and normalized
fragment. -/
structure Word where
  original_word : String
  normalized_word : String
deriving DecidableEq

/-- The `ParseData` dataclass of `parser.py`: word list, detected case,
detected separator. -/
structure ParseData where
  words : List Word
  original_case : Case
  original_separator : String
deriving DecidableEq

/-- The body of `parse_case` after acronym handling, `parser.py` lines 62
to 93: run the letter-run detector, drop the separator placeholders, determine
the case, and build the word list with normalized forms. -/
def parse_body (words_with_sep : List (Option String)) (separator : String)
    (was_upper : Bool) (string : String) (acr : List String)
    (advanced : Bool) : ParseData :=
  let resolved := letterRunLoop acr advanced words_with_sep
  let words : List String := resolved.filterMap id
  let case_type := determine_case was_upper words string
  let word_list := words.map (fun w => Word.mk w (normalize_word w acr))
  ParseData.mk word_list case_type separator

/-- Port of `parse_case`, `parser.py` lines 27 to 93.  The input is segmented;
a truthy acronym list (present and nonempty, the Python `if acronyms:`) is
sanitized, which can fail with `InvalidAcronymError`, and selects advanced
acronym detection; otherwise the empty list and simple detection are used. -/
def parse_case (string : String)
    (acronyms : Option (List String) := none) :
    Except InvalidAcronymError ParseData :=
  let seg := segment_string string
  match acronyms with
  | some l =>
    if l.isEmpty then
      .ok (parse_body seg.1 seg.2.1 seg.2.2 string [] false)
    else
      match sanitize_acronyms l with
      | .ok sanitized =>
        .ok (parse_body seg.1 seg.2.1 seg.2.2 string sanitized true)
      | .error e => .error e
  | none => .ok (parse_body seg.1 seg.2.1 seg.2.2 string [] false)

/-- Port of `Converter.snake`, `converter.py` lines 76 to 102: parse, then
join the lowercased normalized words with underscores (an empty input yields
the empty string through the empty word list, matching the `Converter`
fallback). -/
def Converter_snake (text : String)
    (acronyms : Option (List String) := none) :
    Except InvalidAcronymError String :=
  match parse_case text acronyms with
  | .ok pd => .ok (joinWith "_" (pd.words.map (fun w => str_toLower w.normalized_word)))
  | .error e => .error e

/-- A nonempty word of ASCII lowercase letters. -/
def lowerWord (w : String) : Prop :=
  w.data ≠ [] ∧ ∀ c ∈ w.data, c.isLower = true

/-- A nonempty word of ASCII uppercase letters. -/
def upperWord (w : String) : Prop :=
  w.data ≠ [] ∧ ∀ c ∈ w.data, c.isUpper = true

/-- A capitalized word: an ASCII uppercase letter followed by a nonempty run
of ASCII lowercase letters. -/
def capWord (w : String) : Prop :=
  startsUpper w = true ∧ w.data.tail ≠ [] ∧ ∀ x ∈ w.data.tail, x.isLower = true

/-- A word written uniformly in one recognizable style: all lowercase, all
uppercase, or capitalized.  These are the words of snake, dash, dot, const,
camel and Pascal style inputs. -/
def atomicWord (w : String) : Prop :=
  lowerWord w ∨ upperWord w ∨ capWord w

instance (w : String) : Decidable (lowerWord w) :=
  inferInstanceAs (Decidable (_ ∧ _))

instance (w : String) : Decidable (upperWord w) :=
  inferInstanceAs (Decidable (_ ∧ _))

instance (w : String) : Decidable (capWord w) :=
  inferInstanceAs (Decidable (_ ∧ _))

instance (w : String) : Decidable (atomicWord w) :=
  inferInstanceAs (Decidable (_ ∨ _))

end CaseConversion

namespace CaseConversion

/-- C4: `parse_case "fooBarBaz"` with no acronym list returns exactly the word
list `[("foo", "Foo"), ("Bar", "Bar"), ("Baz", "Baz")]`, case classification
CAMEL, and separator `""`; the capital letters are merged with the following
lowercase fragments rather than kept as one-letter words. -/
theorem parse_case_fooBarBaz :
    parse_case "fooBarBaz" none =
      .ok (ParseData.mk
        [Word.mk "foo" "Foo", Word.mk "Bar" "Bar", Word.mk "Baz" "Baz"]
        Case.CAMEL "") := rfl

/-- C7: `parse_case ""` with no acronyms returns zero words, classification
UNKNOWN, an empty separator, and no error. -/
theorem parse_case_empty :
    parse_case "" none = .ok (ParseData.mk [] Case.UNKNOWN "") := rfl

/-- C6: acronym-list sanitization uppercases every entry and verifies it
contains only letters: `["http"]` becomes `["HTTP"]`, and a list containing
`"HT-TP"` is rejected with `InvalidAcronymError`. -/
theorem sanitize_acronyms_spec_examples :
    sanitize_acronyms ["http"] = .ok ["HTTP"] ∧
      sanitize_acronyms ["HT-TP"] =
        .error (InvalidAcronymError.invalidAcronym "HT-TP") :=
  ⟨rfl, rfl⟩

/-- C10: for every input string, `parse_case` with an empty acronym list
behaves exactly like `parse_case` with no acronym list: the empty list selects
the simple-mode heuristic, sanitization is skipped, and no
`InvalidAcronymError` can be raised. -/
theorem parse_case_empty_acronyms (s : String) :
    parse_case s (some []) = parse_case s none ∧
      ∃ pd, parse_case s (some []) = .ok pd :=
  ⟨rfl, ⟨_, rfl⟩⟩

/-- C1 counterexample: with the acronym list `["HTML"]`, the input
`"fooHTMLworld"` contains the configured acronym spelled all-upper immediately
adjacent to ordinary words, yet `parse_case` splits it into the per-letter
words `"H"`, `"T"`, `"M"` (the segmenter hands the final `L` to the following
lowercase word), so the acronym is not emitted as one Word. -/
theorem parse_case_splits_adjacent_acronym :
    (parse_case "fooHTMLworld" (some ["HTML"])).map
        (fun pd => pd.words.map Word.original_word) =
      .ok ["foo", "H", "T", "M", "Lworld"] := rfl

end CaseConversion

namespace CaseConversion

theorem char_isUpper_iff {c : Char} :
    c.isUpper = true ↔ 65 ≤ c.toNat ∧ c.toNat ≤ 90 := by
  simp only [Char.isUpper, Bool.and_eq_true, decide_eq_true_eq, UInt32.le_def,
    BitVec.le_def, Char.toNat, UInt32.toNat]
  constructor
  · rintro ⟨h1, h2⟩
    exact ⟨h1, h2⟩
  · rintro ⟨h1, h2⟩
    exact ⟨h1, h2⟩

theorem char_isLower_iff {c : Char} :
    c.isLower = true ↔ 97 ≤ c.toNat ∧ c.toNat ≤ 122 := by
  simp only [Char.isLower, Bool.and_eq_true, decide_eq_true_eq, UInt32.le_def,
    BitVec.le_def, Char.toNat, UInt32.toNat]
  constructor
  · rintro ⟨h1, h2⟩
    exact ⟨h1, h2⟩
  · rintro ⟨h1, h2⟩
    exact ⟨h1, h2⟩

end CaseConversion

namespace CaseConversion

theorem char_toNat_ofNat_valid (n : Nat) (h : n.isValidChar) :
    (Char.ofNat n).toNat = n := by
  rw [Char.ofNat, dif_pos h]
  rfl

theorem char_toUpper_of_isUpper {c : Char} (h : c.isUpper = true) :
    c.toUpper = c := by
  have hn := char_isUpper_iff.mp h
  rw [Char.toUpper, if_neg]
  omega

theorem char_toLower_of_isLower {c : Char} (h : c.isLower = true) :
    c.toLower = c := by
  have hn := char_isLower_iff.mp h
  rw [Char.toLower, if_neg]
  omega

theorem char_toLower_toUpper (c : Char) : c.toUpper.toLower = c.toLower := by
  by_cases h : 97 ≤ c.toNat ∧ c.toNat ≤ 122
  · have hv : Nat.isValidChar (c.toNat - 32) := Or.inl (by omega)
    have h1 : c.toUpper = Char.ofNat (c.toNat - 32) := by
      rw [Char.toUpper, if_pos h]
    have h2 : c.toUpper.toNat = c.toNat - 32 := by
      rw [h1, char_toNat_ofNat_valid _ hv]
    have hL : c.toUpper.toLower = Char.ofNat (c.toUpper.toNat + 32) := by
      rw [Char.toLower, if_pos (by omega)]
    have hR : c.toLower = c := by
      rw [Char.toLower, if_neg (by omega)]
    rw [hL, hR, h2]
    have h3 : c.toNat - 32 + 32 = c.toNat := by omega
    rw [h3, Char.ofNat_toNat]
  · have h1 : c.toUpper = c := by
      rw [Char.toUpper, if_neg h]
    rw [h1]

theorem char_toLower_toLower (c : Char) : c.toLower.toLower = c.toLower := by
  by_cases h : 65 ≤ c.toNat ∧ c.toNat ≤ 90
  · have hv : Nat.isValidChar (c.toNat + 32) := Or.inl (by omega)
    have h1 : c.toLower = Char.ofNat (c.toNat + 32) := by
      rw [Char.toLower, if_pos h]
    have h2 : c.toLower.toNat = c.toNat + 32 := by
      rw [h1, char_toNat_ofNat_valid _ hv]
    rw [Char.toLower, if_neg (by omega)]
  · have h1 : c.toLower = c := by
      rw [Char.toLower, if_neg h]
    rw [h1, Char.toLower, if_neg h]

theorem char_isUpper_toUpper_of_isLower {c : Char} (h : c.isLower = true) :
    c.toUpper.isUpper = true := by
  have hn := char_isLower_iff.mp h
  have hv : (c.toNat - 32).isValidChar := Or.inl (by omega)
  have h1 : c.toUpper = Char.ofNat (c.toNat - 32) := by
    rw [Char.toUpper, if_pos (by omega)]
  rw [char_isUpper_iff, h1, char_toNat_ofNat_valid _ hv]
  omega

theorem char_not_isLower_of_isUpper {c : Char} (h : c.isUpper = true) :
    c.isLower = false := by
  have hn := char_isUpper_iff.mp h
  rcases hl : c.isLower with _ | _
  · rfl
  · have := char_isLower_iff.mp hl
    omega

theorem char_not_isUpper_of_isLower {c : Char} (h : c.isLower = true) :
    c.isUpper = false := by
  have hn := char_isLower_iff.mp h
  rcases hl : c.isUpper with _ | _
  · rfl
  · have := char_isUpper_iff.mp hl
    omega

theorem char_toNat_inj {a b : Char} (h : a.toNat = b.toNat) : a = b := by
  have : Char.ofNat a.toNat = Char.ofNat b.toNat := by rw [h]
  rwa [Char.ofNat_toNat, Char.ofNat_toNat] at this

theorem sep_not_isLower {c : Char} (h : isSep c = true) : c.isLower = false := by
  simp only [isSep, Bool.or_eq_true, decide_eq_true_eq] at h
  rcases h with ((((h | h) | h) | h) | h) | h <;> subst h <;> rfl

theorem sep_not_isUpper {c : Char} (h : isSep c = true) : c.isUpper = false := by
  simp only [isSep, Bool.or_eq_true, decide_eq_true_eq] at h
  rcases h with ((((h | h) | h) | h) | h) | h <;> subst h <;> rfl

theorem not_sep_of_isLower {c : Char} (h : c.isLower = true) : isSep c = false := by
  rcases hs : isSep c with _ | _
  · rfl
  · rw [sep_not_isLower hs] at h
    exact absurd h (by simp)

theorem not_sep_of_isUpper {c : Char} (h : c.isUpper = true) : isSep c = false := by
  rcases hs : isSep c with _ | _
  · rfl
  · rw [sep_not_isUpper hs] at h
    exact absurd h (by simp)

end CaseConversion

namespace CaseConversion

theorem string_mk_data (s : String) : String.mk s.data = s := rfl

theorem str_toUpper_data (s : String) :
    (str_toUpper s).data = s.data.map Char.toUpper := rfl

theorem str_toLower_data (s : String) :
    (str_toLower s).data = s.data.map Char.toLower := rfl

theorem str_toUpper_of_upperWord {w : String} (h : upperWord w) :
    str_toUpper w = w := by
  have h1 : w.data.map Char.toUpper = w.data.map id :=
    List.map_congr_left (fun c hc => char_toUpper_of_isUpper (h.2 c hc))
  rw [str_toUpper, h1, List.map_id, string_mk_data]

theorem upperWord_all_isAlpha {w : String} (h : upperWord w) :
    w.data.all Char.isAlpha = true := by
  rw [List.all_eq_true]
  intro c hc
  simp [Char.isAlpha, h.2 c hc]

theorem is_upper_of_upperWord {w : String} (h : upperWord w) :
    is_upper w = true := by
  obtain ⟨hne, hall⟩ := h
  rcases hd : w.data with _ | ⟨c, t⟩
  · exact absurd hd hne
  · have hc : c.isUpper = true := hall c (by rw [hd]; exact List.mem_cons_self c t)
    have hnl : ∀ x ∈ w.data, x.isLower = false :=
      fun x hx => char_not_isLower_of_isUpper (hall x hx)
    simp only [is_upper, string_isupper, Bool.and_eq_true, Bool.not_eq_true',
      List.any_eq_true, List.any_eq_false]
    constructor
    · exact ⟨c, by rw [hd]; exact List.mem_cons_self c t, hc⟩
    · exact fun x hx => by simp [hnl x hx]

theorem is_upper_false_of_lowerWord {w : String} (h : lowerWord w) :
    is_upper w = false := by
  obtain ⟨hne, hall⟩ := h
  have : w.data.any Char.isUpper = false := by
    rw [List.any_eq_false]
    exact fun x hx => by simp [char_not_isUpper_of_isLower (hall x hx)]
  simp [is_upper, string_isupper, this]

theorem capWord_shape {w : String} (h : capWord w) :
    ∃ d0 d1 dt, w.data = d0 :: d1 :: dt ∧ d0.isUpper = true ∧
      d1.isLower = true ∧ ∀ x ∈ dt, x.isLower = true := by
  obtain ⟨hs, hne, hall⟩ := h
  rcases hd : w.data with _ | ⟨d0, t⟩
  · rw [startsUpper, hd] at hs
    exact absurd hs (by simp)
  · rcases ht : t with _ | ⟨d1, dt⟩
    · rw [hd, ht] at hne
      exact absurd rfl hne
    · refine ⟨d0, d1, dt, by rw [← ht], ?_, ?_, ?_⟩
      · rw [startsUpper, hd] at hs
        exact hs
      · exact hall d1 (by rw [hd, ht]; exact List.mem_cons_self d1 dt)
      · intro x hx
        exact hall x (by rw [hd, ht]; exact List.mem_cons_of_mem d1 hx)

theorem is_upper_false_of_capWord {w : String} (h : capWord w) :
    is_upper w = false := by
  obtain ⟨d0, d1, dt, hd, _, h1, _⟩ := capWord_shape h
  have : w.data.any Char.isLower = true := by
    rw [List.any_eq_true]
    exact ⟨d1, by rw [hd]; simp, h1⟩
  simp [is_upper, string_isupper, this]

theorem normalize_word_self_acronym {A : String} (h : upperWord A)
    (acr : List String) (hm : A ∈ acr) : normalize_word A acr = A := by
  rw [normalize_word, str_toUpper_of_upperWord h,
    if_pos (List.elem_eq_true_of_mem hm)]

theorem lowerWord_reverse_shape {w : String} (h : lowerWord w) :
    ∃ q rest, w.data.reverse = q :: rest ∧ q.isLower = true := by
  obtain ⟨hne, hall⟩ := h
  rcases hr : w.data.reverse with _ | ⟨q, rest⟩
  · rw [List.reverse_eq_nil_iff] at hr
    exact absurd hr hne
  · refine ⟨q, rest, rfl, hall q ?_⟩
    have : q ∈ w.data.reverse := by rw [hr]; exact List.mem_cons_self q rest
    rwa [List.mem_reverse] at this

theorem upperWord_reverse_shape {w : String} (h : upperWord w) :
    ∃ q rest, w.data.reverse = q :: rest ∧ q.isUpper = true := by
  obtain ⟨hne, hall⟩ := h
  rcases hr : w.data.reverse with _ | ⟨q, rest⟩
  · rw [List.reverse_eq_nil_iff] at hr
    exact absurd hr hne
  · refine ⟨q, rest, rfl, hall q ?_⟩
    have : q ∈ w.data.reverse := by rw [hr]; exact List.mem_cons_self q rest
    rwa [List.mem_reverse] at this

theorem capWord_reverse_shape {w : String} (h : capWord w) :
    ∃ q rest, w.data.reverse = q :: rest ∧ q.isLower = true := by
  obtain ⟨d0, d1, dt, hd, _, h1, hdt⟩ := capWord_shape h
  have hne : (d1 :: dt).reverse ≠ [] := by simp
  rcases hr : (d1 :: dt).reverse with _ | ⟨q, rest⟩
  · exact absurd hr hne
  · have hq : q ∈ d1 :: dt := by
      rw [← List.mem_reverse, hr]
      exact List.mem_cons_self q rest
    refine ⟨q, rest ++ [d0], ?_, ?_⟩
    · rw [hd]
      rw [show (d0 :: d1 :: dt).reverse = (d1 :: dt).reverse ++ [d0] by simp, hr]
      rfl
    · rcases List.mem_cons.mp hq with hq1 | hq2
      · rw [hq1]
        exact h1
      · exact hdt q hq2

end CaseConversion

namespace CaseConversion

theorem segGo_flush (cur : List Char) :
    segGo cur [] = if cur.isEmpty then [] else [some (String.mk cur.reverse)] := by
  simp [segGo]

theorem segGo_sep {c : Char} (h : isSep c = true) (cur : List Char) (cs : List Char) :
    segGo cur (c :: cs) =
      (if cur.isEmpty then [] else [some (String.mk cur.reverse)]) ++
        (none :: segGo [] cs) := by
  simp [segGo, h]

theorem segGo_start {c : Char} (h : isSep c = false) (cs : List Char) :
    segGo [] (c :: cs) = segGo [c] cs := by
  simp [segGo, h]

theorem segGo_join_low {p c : Char} (hp : p.isLower = true) (hc : c.isLower = true)
    (t cs : List Char) :
    segGo (p :: t) (c :: cs) = segGo (c :: p :: t) cs := by
  simp [segGo, not_sep_of_isLower hc, hp, hc, char_not_isUpper_of_isLower hc,
    char_not_isUpper_of_isLower hp]

theorem segGo_join_up {p c : Char} (hp : p.isUpper = true) (hc : c.isUpper = true)
    (t cs : List Char) :
    segGo (p :: t) (c :: cs) = segGo (c :: p :: t) cs := by
  simp [segGo, not_sep_of_isUpper hc, char_not_isLower_of_isUpper hp,
    char_not_isLower_of_isUpper hc]

theorem segGo_split_low_up {p c : Char} (hp : p.isLower = true)
    (hc : c.isUpper = true) (t cs : List Char) :
    segGo (p :: t) (c :: cs) =
      some (String.mk (p :: t).reverse) :: segGo [c] cs := by
  simp [segGo, not_sep_of_isUpper hc, hp, hc]

theorem segGo_split_up_low {p c : Char} (hp : p.isUpper = true)
    (hc : c.isLower = true) {t : List Char} (ht : t ≠ []) (cs : List Char) :
    segGo (p :: t) (c :: cs) =
      some (String.mk t.reverse) :: segGo [c, p] cs := by
  simp [segGo, not_sep_of_isLower hc, hp, hc, char_not_isUpper_of_isLower hc,
    char_not_isLower_of_isUpper hp, ht]

theorem segGo_join_single_up {p c : Char} (hp : p.isUpper = true)
    (hc : c.isLower = true) (cs : List Char) :
    segGo [p] (c :: cs) = segGo [c, p] cs := by
  simp [segGo, not_sep_of_isLower hc, hc, char_not_isUpper_of_isLower hc,
    char_not_isLower_of_isUpper hp]

theorem segGo_consume_low (ls : List Char) :
    ∀ (p : Char) (t cs : List Char), (∀ x ∈ ls, x.isLower = true) →
      p.isLower = true →
      segGo (p :: t) (ls ++ cs) = segGo (ls.reverse ++ p :: t) cs := by
  induction ls with
  | nil => intro p t cs _ _; simp
  | cons c ls' ih =>
    intro p t cs hls hp
    have hc : c.isLower = true := hls c (List.mem_cons_self c ls')
    rw [List.cons_append, segGo_join_low hp hc,
      ih c (p :: t) cs (fun x hx => hls x (List.mem_cons_of_mem c hx)) hc]
    simp

theorem segGo_consume_up (us : List Char) :
    ∀ (p : Char) (t cs : List Char), (∀ x ∈ us, x.isUpper = true) →
      p.isUpper = true →
      segGo (p :: t) (us ++ cs) = segGo (us.reverse ++ p :: t) cs := by
  induction us with
  | nil => intro p t cs _ _; simp
  | cons c us' ih =>
    intro p t cs hus hp
    have hc : c.isUpper = true := hus c (List.mem_cons_self c us')
    rw [List.cons_append, segGo_join_up hp hc,
      ih c (p :: t) cs (fun x hx => hus x (List.mem_cons_of_mem c hx)) hc]
    simp

theorem segGo_word_start {w : String} (h : atomicWord w) (cs : List Char) :
    segGo [] (w.data ++ cs) = segGo w.data.reverse cs := by
  rcases h with hl | hu | hcap
  · obtain ⟨hne, hall⟩ := hl
    rcases hd : w.data with _ | ⟨c, t⟩
    · exact absurd hd hne
    · have hc : c.isLower = true := hall c (by rw [hd]; exact List.mem_cons_self c t)
      rw [List.cons_append, segGo_start (not_sep_of_isLower hc),
        segGo_consume_low t c [] cs
          (fun x hx => hall x (by rw [hd]; exact List.mem_cons_of_mem c hx)) hc]
      simp
  · obtain ⟨hne, hall⟩ := hu
    rcases hd : w.data with _ | ⟨c, t⟩
    · exact absurd hd hne
    · have hc : c.isUpper = true := hall c (by rw [hd]; exact List.mem_cons_self c t)
      rw [List.cons_append, segGo_start (not_sep_of_isUpper hc),
        segGo_consume_up t c [] cs
          (fun x hx => hall x (by rw [hd]; exact List.mem_cons_of_mem c hx)) hc]
      simp
  · obtain ⟨d0, d1, dt, hd, h0, h1, hdt⟩ := capWord_shape hcap
    rw [hd, List.cons_append, segGo_start (not_sep_of_isUpper h0),
      List.cons_append, segGo_join_single_up h0 h1,
      segGo_consume_low dt d1 [d0] cs hdt h1]
    simp

end CaseConversion

namespace CaseConversion

theorem atomicWord_data_ne_nil {w : String} (h : atomicWord w) : w.data ≠ [] := by
  rcases h with hl | hu | hcap
  · exact hl.1
  · exact hu.1
  · obtain ⟨d0, d1, dt, hd, _, _, _⟩ := capWord_shape hcap
    rw [hd]
    exact List.cons_ne_nil _ _

theorem seg_low_up_cap {u F v : String} (hu : lowerWord u) (hF : upperWord F)
    (hv : capWord v) :
    segGo [] (u.data ++ F.data ++ v.data) = [some u, some F, some v] := by
  obtain ⟨p, t, hpt, hp⟩ := lowerWord_reverse_shape hu
  obtain ⟨d0, d1, dt, hvd, h0, h1, hdt⟩ := capWord_shape hv
  rcases hFd : F.data with _ | ⟨a0, at'⟩
  · exact absurd hFd hF.1
  have ha0 : a0.isUpper = true :=
    hF.2 a0 (by rw [hFd]; exact List.mem_cons_self _ _)
  have hat : ∀ x ∈ at', x.isUpper = true :=
    fun x hx => hF.2 x (by rw [hFd]; exact List.mem_cons_of_mem _ hx)
  rw [List.append_assoc, segGo_word_start (Or.inl hu), hpt, hvd,
    List.cons_append, segGo_split_low_up hp ha0]
  have hw1 : String.mk (p :: t).reverse = u := by
    rw [← hpt, List.reverse_reverse, string_mk_data]
  rw [hw1, show at' ++ d0 :: d1 :: dt = (at' ++ [d0]) ++ (d1 :: dt) from
    (List.append_cons at' d0 (d1 :: dt)).symm ▸ rfl]
  rw [segGo_consume_up (at' ++ [d0]) a0 [] (d1 :: dt)
    (fun x hx => by
      rcases List.mem_append.mp hx with hx1 | hx2
      · exact hat x hx1
      · rw [List.mem_singleton.mp hx2]; exact h0) ha0]
  rw [show (at' ++ [d0]).reverse ++ [a0] = d0 :: (at'.reverse ++ [a0]) by simp]
  rw [segGo_split_up_low h0 h1 (by simp) dt]
  have hw2 : String.mk (at'.reverse ++ [a0]).reverse = F := by
    rw [show (at'.reverse ++ [a0]).reverse = a0 :: at' by simp, ← hFd,
      string_mk_data]
  rw [hw2, show (dt : List Char) = dt ++ [] from (List.append_nil dt).symm,
    segGo_consume_low dt d1 [d0] [] hdt h1, segGo_flush,
    if_neg (by simp)]
  have hw3 : String.mk (dt.reverse ++ d1 :: [d0]).reverse = v := by
    rw [show (dt.reverse ++ d1 :: [d0]).reverse = d0 :: d1 :: dt by simp, ← hvd,
      string_mk_data]
  rw [hw3]

theorem joinWith_cons_data (sep w w' : String) (ws : List String) :
    (joinWith sep (w :: w' :: ws)).data =
      w.data ++ sep.data ++ (joinWith sep (w' :: ws)).data := by
  rw [joinWith]
  simp

theorem seg_join_sep :
    ∀ (ws : List String), (∀ w ∈ ws, atomicWord w) →
      ∀ {c : Char}, isSep c = true → ws ≠ [] →
      segGo [] (joinWith (String.mk [c]) ws).data =
        (ws.map some).intersperse none := by
  intro ws
  induction ws with
  | nil => intro _ _ _ h; exact absurd rfl h
  | cons w ws' ih =>
    intro hall c hc _
    rcases ws' with _ | ⟨w', ws''⟩
    · have hw : atomicWord w := hall w (List.mem_cons_self _ _)
      rw [show joinWith (String.mk [c]) [w] = w from rfl,
        show w.data = w.data ++ [] by simp, segGo_word_start hw, segGo_flush,
        if_neg (by simp [atomicWord_data_ne_nil hw]), List.reverse_reverse,
        string_mk_data]
      rfl
    · have hw : atomicWord w := hall w (List.mem_cons_self _ _)
      rw [joinWith_cons_data, List.append_assoc, segGo_word_start hw,
        show (String.mk [c]).data ++ (joinWith (String.mk [c]) (w' :: ws'')).data
          = c :: (joinWith (String.mk [c]) (w' :: ws'')).data from rfl,
        segGo_sep hc, if_neg (by simp [atomicWord_data_ne_nil hw]),
        List.reverse_reverse, string_mk_data,
        ih (fun x hx => hall x (List.mem_cons_of_mem _ hx)) hc
          (List.cons_ne_nil _ _)]
      rfl

theorem joinWith_empty_data :
    ∀ l : List String, (joinWith "" l).data = (l.map String.data).flatten := by
  intro l
  induction l with
  | nil => rfl
  | cons x l' ih =>
    rcases l' with _ | ⟨y, l''⟩
    · show x.data = x.data ++ [].flatten
      simp
    · rw [joinWith_cons_data, ih]
      show x.data ++ [] ++ _ = _
      simp

theorem seg_caps :
    ∀ (caps : List String) (p : Char) (t : List Char),
      (∀ w ∈ caps, capWord w) → p.isLower = true →
      segGo (p :: t) ((caps.map String.data).flatten) =
        some (String.mk (p :: t).reverse) :: caps.map some := by
  intro caps
  induction caps with
  | nil =>
    intro p t _ hp
    show segGo (p :: t) [] = _
    rw [segGo_flush, if_neg (by simp)]
    rfl
  | cons w caps' ih =>
    intro p t hall hp
    have hw : capWord w := hall w (List.mem_cons_self _ _)
    obtain ⟨d0, d1, dt, hd, h0, h1, hdt⟩ := capWord_shape hw
    rw [List.map_cons, List.flatten_cons, hd, List.cons_append, List.cons_append,
      segGo_split_low_up hp h0, segGo_join_single_up h0 h1,
      segGo_consume_low dt d1 [d0] _ hdt h1]
    have hwrev : dt.reverse ++ d1 :: [d0] = w.data.reverse := by
      rw [hd]; simp
    rw [hwrev]
    obtain ⟨q, qrest, hq, hql⟩ := capWord_reverse_shape hw
    rw [hq, ih q qrest (fun x hx => hall x (List.mem_cons_of_mem _ hx)) hql,
      ← hq, List.reverse_reverse, string_mk_data]
    rfl

end CaseConversion

namespace CaseConversion

theorem loopF_succ (acr : List String) (adv : Bool) (fuel : Nat)
    (words : List (Option String)) (i r : Nat) :
    letterRunLoopF acr adv (fuel + 1) words i r =
      if i < words.length then
        if optUpper (words.getD i none) then
          letterRunLoopF acr adv fuel words (i + 1) (r + 1)
        else if r = 0 then
          letterRunLoopF acr adv fuel words (i + 1) 0
        else
          (fun res => letterRunLoopF acr adv fuel res.2 (res.1 + 2) 0)
            (if adv then advanced_acronym_detection (i - r) i words acr
             else simple_acronym_detection (i - r) i words)
      else words := rfl

theorem loopF_done (acr : List String) (adv : Bool) (fuel : Nat)
    (words : List (Option String)) (i r : Nat) (h : words.length ≤ i) :
    letterRunLoopF acr adv fuel words i r = words := by
  cases fuel with
  | zero => rfl
  | succ fuel => rw [loopF_succ, if_neg (by omega)]

theorem getD_eq_cell {words : List (Option String)} {k : Nat}
    (hk : k < words.length) : words.getD k none = words[k] := by
  rw [List.getD_eq_getElem?_getD, List.getElem?_eq_getElem hk]
  rfl

theorem simple_single {k : Nat} {words : List (Option String)} {u : String}
    (hk : k < words.length) (hu : words[k] = some u) :
    simple_acronym_detection k (k + 1) words = (k, words) := by
  have hdrop : words.drop k = some u :: words.drop (k + 1) := by
    rw [List.drop_eq_getElem_cons hk, hu]
  have h1 : k + 1 - k = 1 := by omega
  have hrecon : words.take k ++ [some u] ++ words.drop (k + 1) = words := by
    conv_rhs => rw [← List.take_append_drop k words, hdrop]
    simp
  simp only [simple_acronym_detection, h1, hdrop]
  simp only [List.take_succ_cons, List.take_zero]
  rw [show (List.filterMap id [some u] : List String) = [u] from rfl,
    show joinWith "" [u] = u from rfl, hrecon]

theorem loopF_noAdj (acr : List String) :
    ∀ (fuel : Nat) (words : List (Option String)) (i r : Nat),
      words.length - i ≤ fuel →
      (∀ j, j + 1 < words.length → optUpper (words.getD j none) = true →
        optUpper (words.getD (j + 1) none) = false) →
      (r = 0 ∨ (r = 1 ∧ 1 ≤ i ∧ optUpper (words.getD (i - 1) none) = true)) →
      letterRunLoopF acr false fuel words i r = words := by
  intro fuel
  induction fuel with
  | zero =>
    intro words i r hf _ _
    rfl
  | succ fuel ih =>
    intro words i r hf hadj hr
    by_cases hi : i < words.length
    · rw [loopF_succ, if_pos hi]
      by_cases hup : optUpper (words.getD i none) = true
      · rw [if_pos hup]
        have hr0 : r = 0 := by
          rcases hr with h | ⟨h1, h2, h3⟩
          · exact h
          · exfalso
            have hlt : (i - 1) + 1 < words.length := by omega
            have := hadj (i - 1) hlt h3
            rw [show i - 1 + 1 = i by omega] at this
            rw [this] at hup
            exact absurd hup (by simp)
        subst hr0
        exact ih words (i + 1) 1 (by omega) hadj
          (Or.inr ⟨rfl, by omega, by simpa using hup⟩)
      · rw [if_neg hup]
        rcases hr with hr0 | ⟨hr1, hi1, hupm⟩
        · subst hr0
          rw [if_pos rfl]
          exact ih words (i + 1) 0 (by omega) hadj (Or.inl rfl)
        · subst hr1
          rw [if_neg (by omega)]
          have him : i - 1 < words.length := by omega
          rw [getD_eq_cell him] at hupm
          obtain ⟨u, hu⟩ : ∃ u, words[i - 1] = some u := by
            rcases hcell : words[i - 1] with _ | u
            · rw [hcell] at hupm
              exact absurd hupm (by simp [optUpper])
            · exact ⟨u, rfl⟩
          have hs := simple_single him hu
          rw [show i - 1 + 1 = i by omega] at hs
          simp only [Bool.false_eq_true, if_false, hs]
          rw [show i - 1 + 2 = i + 1 by omega]
          exact ih words (i + 1) 0 (by omega) hadj (Or.inl rfl)
    · exact loopF_done acr false (fuel + 1) words i r (by omega)

end CaseConversion

namespace CaseConversion

theorem acronymSplitF_succ (acr : List String) (fuel : Nat) (c : Char)
    (cs : List Char) :
    acronymSplitF acr (fuel + 1) (c :: cs) =
      match bestAcronymMatch acr (c :: cs) with
      | some a => a :: acronymSplitF acr fuel ((c :: cs).drop a.length)
      | none => [c] :: acronymSplitF acr fuel cs := rfl

theorem bestAcronymMatch_single_self {A : String} (hA : A.data ≠ [])
    (xs : List Char) :
    bestAcronymMatch [A] (A.data ++ xs) = some A.data := by
  have hpre : A.data.isPrefixOf (A.data ++ xs) = true := by
    rw [List.isPrefixOf_iff_prefix]
    exact List.prefix_append _ _
  simp only [bestAcronymMatch, List.map_cons, List.map_nil, List.filter,
    hpre, Bool.and_true]
  rw [show (!A.data.isEmpty) = true by simp [hA]]
  rfl

theorem bestAcronymMatch_single_none {A : String} {c : Char} (cs : List Char)
    (hc : c ∉ A.data) (hA : A.data ≠ []) :
    bestAcronymMatch [A] (c :: cs) = none := by
  rcases hd : A.data with _ | ⟨a0, as⟩
  · exact absurd hd hA
  have hne : (a0 == c) = false := by
    rw [beq_eq_false_iff_ne]
    intro h
    rw [h] at hd
    exact hc (by rw [hd]; exact List.mem_cons_self _ _)
  have hpre : A.data.isPrefixOf (c :: cs) = false := by
    rw [hd]
    simp [List.isPrefixOf, hne]
  simp only [bestAcronymMatch, List.map_cons, List.map_nil, List.filter,
    hpre, Bool.and_false]
  rfl

theorem acronymSplitF_singles {A : String} (hA : A.data ≠ []) :
    ∀ (fuel : Nat) (xs : List Char), xs.length ≤ fuel →
      (∀ c ∈ xs, c ∉ A.data) →
      acronymSplitF [A] fuel xs = xs.map (fun c => [c]) := by
  intro fuel
  induction fuel with
  | zero =>
    intro xs hlen _
    rcases xs with _ | ⟨c, cs⟩
    · rfl
    · simp at hlen
  | succ fuel ih =>
    intro xs hlen hmem
    rcases xs with _ | ⟨c, cs⟩
    · rfl
    · rw [acronymSplitF_succ,
        bestAcronymMatch_single_none cs (hmem c (List.mem_cons_self _ _)) hA]
      rw [ih cs (by simp at hlen; omega)
        (fun x hx => hmem x (List.mem_cons_of_mem _ hx))]
      rfl

theorem acronymSplit_run {A : String} (hA : A.data ≠ []) (xs : List Char)
    (hxs : ∀ c ∈ xs, c ∉ A.data) :
    acronymSplit [A] (A.data ++ xs) = A.data :: xs.map (fun c => [c]) := by
  obtain ⟨a0, as, hd⟩ := List.exists_cons_of_ne_nil hA
  have hm := bestAcronymMatch_single_self hA xs
  have hcons : A.data ++ xs = a0 :: (as ++ xs) := by rw [hd]; rfl
  rw [hcons] at hm
  rw [acronymSplit, hcons]
  rw [show (a0 :: (as ++ xs)).length = (as ++ xs).length + 1 from rfl,
    acronymSplitF_succ, hm]
  have hdrop : (a0 :: (as ++ xs)).drop A.data.length = xs := by
    rw [show a0 :: (as ++ xs) = (a0 :: as) ++ xs from rfl, ← hd]
    exact List.drop_left _ _
  show A.data :: acronymSplitF [A] (as ++ xs).length
      ((a0 :: (as ++ xs)).drop A.data.length) = _
  rw [hdrop]
  rw [acronymSplitF_singles hA _ xs (by rw [List.length_append]; omega) hxs]

theorem advanced_single_run (acr : List String) (u f v : String) :
    advanced_acronym_detection 1 2 [some u, some f, some v] acr =
      ((acronymSplit acr f.data).length,
        [some u] ++ (acronymSplit acr f.data).map (fun p => some (String.mk p))
          ++ [some v]) := by
  simp only [advanced_acronym_detection]
  rw [show ((([some u, some f, some v] : List (Option String)).drop 1).take
      (2 - 1)).filterMap id = [f] from rfl,
    show joinWith "" [f] = f from rfl]
  rw [show (1 : Nat) + (acronymSplit acr f.data).length - 1 =
    (acronymSplit acr f.data).length by omega]
  rfl

theorem loopF_single_run (acr : List String) (fuel : Nat) (u f v : String)
    (hfuel : 3 ≤ fuel) (hu : is_upper u = false) (hf : is_upper f = true)
    (hv : is_upper v = false) :
    letterRunLoopF acr true fuel [some u, some f, some v] 0 0 =
      [some u] ++ (acronymSplit acr f.data).map (fun p => some (String.mk p))
        ++ [some v] := by
  obtain ⟨k, rfl⟩ : ∃ k, fuel = k + 3 := ⟨fuel - 3, by omega⟩
  rw [show k + 3 = (k + 2) + 1 by omega, loopF_succ, if_pos (by simp),
    show ([some u, some f, some v] : List (Option String)).getD 0 none =
      some u from rfl,
    show optUpper (some u) = is_upper u from rfl, hu]
  rw [if_neg (by simp), if_pos rfl]
  rw [show k + 2 = (k + 1) + 1 by omega, loopF_succ, if_pos (by simp),
    show ([some u, some f, some v] : List (Option String)).getD 1 none =
      some f from rfl,
    show optUpper (some f) = is_upper f from rfl, hf, if_pos rfl]
  rw [show k + 1 = k + 1 from rfl, loopF_succ, if_pos (by simp),
    show ([some u, some f, some v] : List (Option String)).getD 2 none =
      some v from rfl,
    show optUpper (some v) = is_upper v from rfl, hv]
  rw [if_neg (by simp), if_neg (by omega)]
  show letterRunLoopF acr true k
      (advanced_acronym_detection 1 2 [some u, some f, some v] acr).2
      ((advanced_acronym_detection 1 2 [some u, some f, some v] acr).1 + 2) 0 = _
  rw [advanced_single_run]
  apply loopF_done
  simp

end CaseConversion

namespace CaseConversion

theorem parse_case_none (s : String) :
    parse_case s none =
      .ok (parse_body (segment_string s).1 (segment_string s).2.1
        (segment_string s).2.2 s [] false) := rfl

theorem sanitize_single_upper {A : String} (hA : upperWord A) :
    sanitize_acronyms [A] = .ok [A] := by
  have h1 : sanitize_acronyms [A] =
      if A.data.all Char.isAlpha then
        match sanitize_acronyms [] with
        | .ok r => .ok (str_toUpper A :: r)
        | .error e => .error e
      else .error (.invalidAcronym A) := rfl
  rw [h1, if_pos (upperWord_all_isAlpha hA)]
  show Except.ok (str_toUpper A :: []) = _
  rw [str_toUpper_of_upperWord hA]

theorem parse_case_advanced_single {s A : String} (hA : upperWord A) :
    parse_case s (some [A]) =
      .ok (parse_body (segment_string s).1 (segment_string s).2.1
        (segment_string s).2.2 s [A] true) := by
  rw [parse_case]
  simp only [List.isEmpty_cons, Bool.false_eq_true, if_false,
    sanitize_single_upper hA]

theorem parse_body_words (tokens : List (Option String)) (sep : String)
    (wu : Bool) (str : String) (acl : List String) (adv : Bool) :
    (parse_body tokens sep wu str acl adv).words =
      ((letterRunLoop acl adv tokens).filterMap id).map
        (fun w => Word.mk w (normalize_word w acl)) := rfl

theorem parse_body_words_orig (tokens : List (Option String)) (sep : String)
    (wu : Bool) (str : String) (acl : List String) (adv : Bool) :
    (parse_body tokens sep wu str acl adv).words.map Word.original_word =
      (letterRunLoop acl adv tokens).filterMap id := by
  rw [parse_body_words, List.map_map]
  exact List.map_id _ ▸ rfl

theorem parse_body_case (tokens : List (Option String)) (sep : String)
    (wu : Bool) (str : String) (acl : List String) (adv : Bool) :
    (parse_body tokens sep wu str acl adv).original_case =
      determine_case wu ((letterRunLoop acl adv tokens).filterMap id) str := rfl

theorem parse_body_sep (tokens : List (Option String)) (sep : String)
    (wu : Bool) (str : String) (acl : List String) (adv : Bool) :
    (parse_body tokens sep wu str acl adv).original_separator = sep := rfl

theorem str_toLower_capitalize (w : String) :
    str_toLower (capitalize w) = str_toLower w := by
  obtain ⟨d⟩ := w
  rcases d with _ | ⟨c, cs⟩
  · rfl
  · show String.mk ((c.toUpper :: cs.map Char.toLower).map Char.toLower) =
      String.mk ((c :: cs).map Char.toLower)
    rw [List.map_cons, List.map_cons, char_toLower_toUpper, List.map_map]
    congr 2
    rw [show (Char.toLower ∘ Char.toLower) =
      fun x => Char.toLower (Char.toLower x) from rfl]
    exact List.map_congr_left (fun x _ => char_toLower_toLower x)

theorem normalize_word_nil (w : String) : normalize_word w [] = capitalize w := rfl

theorem filterMap_intersperse :
    ∀ ws : List String, ((ws.map some).intersperse none).filterMap id = ws := by
  intro ws
  induction ws with
  | nil => rfl
  | cons w ws' ih =>
    rcases ws' with _ | ⟨w', ws''⟩
    · rfl
    · rw [show ((w :: w' :: ws'').map some).intersperse none =
        some w :: none :: ((w' :: ws'').map some).intersperse none from rfl]
      rw [show (some w :: none :: ((w' :: ws'').map some).intersperse none).filterMap id
        = w :: (((w' :: ws'').map some).intersperse none).filterMap id from rfl]
      rw [ih]

theorem intersperse_head (w : String) (ws : List String) :
    ∃ tl, ((w :: ws).map some).intersperse none = some w :: tl := by
  rcases ws with _ | ⟨w', ws'⟩
  · exact ⟨[], rfl⟩
  · exact ⟨none :: ((w' :: ws').map some).intersperse none, rfl⟩

theorem chain_intersperse (ws : List String) :
    List.Chain' (fun a b => optUpper a = true → optUpper b = false)
      ((ws.map some).intersperse none) := by
  induction ws with
  | nil => exact List.chain'_nil
  | cons w ws' ih =>
    rcases ws' with _ | ⟨w', ws''⟩
    · exact List.chain'_singleton _
    · rw [show ((w :: w' :: ws'').map some).intersperse none =
        some w :: none :: ((w' :: ws'').map some).intersperse none from rfl]
      rw [List.chain'_cons]
      refine ⟨fun _ => rfl, ?_⟩
      obtain ⟨tl, htl⟩ := intersperse_head w' ws''
      rw [htl, List.chain'_cons]
      refine ⟨fun h => absurd h (by simp [optUpper]), ?_⟩
      rw [← htl]
      exact ih

theorem chain_to_indexed {R : Option String → Option String → Prop}
    {l : List (Option String)} (h : List.Chain' R l) :
    ∀ j, j + 1 < l.length → R (l.getD j none) (l.getD (j + 1) none) := by
  intro j hj
  have h1 : j < l.length - 1 := by omega
  have := List.chain'_iff_get.mp h j h1
  have hj0 : j < l.length := by omega
  rw [getD_eq_cell hj0, getD_eq_cell hj]
  simpa [List.get_eq_getElem] using this

theorem noAdj_of_all_nonupper {l : List (Option String)}
    (h : ∀ x ∈ l, optUpper x = false) :
    ∀ j, j + 1 < l.length → optUpper (l.getD j none) = true →
      optUpper (l.getD (j + 1) none) = false := by
  intro j hj hup
  exact h _ (by rw [getD_eq_cell hj]; exact List.getElem_mem _)

theorem startsLower_false_of_startsUpper {w : String}
    (h : startsUpper w = true) : startsLower w = false := by
  rcases hd : w.data with _ | ⟨c, cs⟩
  · rw [startsLower, hd]
  · rw [startsUpper, hd] at h
    rw [startsLower, hd]
    exact char_not_isLower_of_isUpper h

theorem determine_case_nil (wu : Bool) (s : String) :
    determine_case wu [] s = Case.UNKNOWN := rfl

theorem determine_case_cons (wu : Bool) (w : String) (rest : List String)
    (s : String) :
    determine_case wu (w :: rest) s =
      if wu = true then Case.UPPER
      else if string_islower s = true then Case.LOWER
      else if startsLower w && rest.all startsUpper then Case.CAMEL
      else if startsUpper w && rest.all startsUpper then Case.PASCAL
      else Case.MIXED := rfl

end CaseConversion

namespace CaseConversion

theorem segment_low_up_cap {u F v : String} (hu : lowerWord u)
    (hF : upperWord F) (hv : capWord v) :
    (segment_string (u ++ F ++ v)).1 = [some u, some F, some v] := by
  show segGo [] (u ++ F ++ v).data = _
  rw [show (u ++ F ++ v).data = u.data ++ F.data ++ v.data by
    rw [String.data_append, String.data_append]]
  exact seg_low_up_cap hu hF hv

/-- C1 amended: when a configured all-uppercase acronym occurs as its own
camel-boundary segment, at a position where the segmenter places both of its
edges exactly (after a lowercase word and before a capitalized word), the
parser emits it as exactly one Word, never split per letter. -/
theorem parse_case_delimited_acronym_atomic (u A v : String)
    (hu : lowerWord u) (hA : upperWord A) (hv : capWord v) :
    (parse_case (u ++ A ++ v) (some [A])).map
      (fun pd => pd.words.map Word.original_word) = .ok [u, A, v] := by
  rw [parse_case_advanced_single hA]
  show Except.ok ((parse_body _ _ _ _ _ _).words.map Word.original_word) = _
  rw [parse_body_words_orig, segment_low_up_cap hu hA hv, letterRunLoop]
  rw [loopF_single_run [A] _ u A v (by simp)
    (is_upper_false_of_lowerWord hu) (is_upper_of_upperWord hA)
    (is_upper_false_of_capWord hv)]
  have hsplit : acronymSplit [A] A.data = [A.data] := by
    have h := acronymSplit_run hA.1 [] (by simp)
    simpa using h
  rw [hsplit]
  simp [string_mk_data]

/-- C1 amended witness at `u = "foo"`, `A = "HTML"`, `v = "World"`. -/
theorem parse_case_delimited_acronym_atomic_witness :
    lowerWord "foo" ∧ upperWord "HTML" ∧ capWord "World" ∧
      (parse_case ("foo" ++ "HTML" ++ "World") (some ["HTML"])).map
        (fun pd => pd.words.map Word.original_word) =
          .ok ["foo", "HTML", "World"] :=
  ⟨by decide, by decide, by decide,
    parse_case_delimited_acronym_atomic "foo" "HTML" "World"
      (by decide) (by decide) (by decide)⟩

/-- C5: in advanced mode, a candidate that matches a prefix of an uppercase
run becomes exactly one acronym Word whose normalized form is the candidate
list entry itself (verbatim, as sanitized), and the unmatched trailing letters
of the run are resolved into further words rather than glued to the
acronym. -/
theorem advanced_prefix_match_verbatim (u A : String) (xs : List Char)
    (v : String) (hu : lowerWord u) (hA : upperWord A)
    (hxs : ∀ c ∈ xs, c.isUpper = true ∧ c ∉ A.data) (hv : capWord v) :
    ∃ pd, parse_case (u ++ String.mk (A.data ++ xs) ++ v) (some [A]) = .ok pd ∧
      pd.words.map Word.original_word =
        [u, A] ++ xs.map (fun c => String.mk [c]) ++ [v] ∧
      pd.words.getD 1 (Word.mk "" "") = Word.mk A A := by
  have hF : upperWord (String.mk (A.data ++ xs)) := by
    refine ⟨by simp [hA.1], ?_⟩
    intro c hc
    rcases List.mem_append.mp hc with h | h
    · exact hA.2 c h
    · exact (hxs c h).1
  refine ⟨_, parse_case_advanced_single hA, ?_, ?_⟩
  · rw [parse_body_words_orig, segment_low_up_cap hu hF hv, letterRunLoop]
    rw [loopF_single_run [A] _ u (String.mk (A.data ++ xs)) v (by simp)
      (is_upper_false_of_lowerWord hu) (is_upper_of_upperWord hF)
      (is_upper_false_of_capWord hv)]
    rw [show (String.mk (A.data ++ xs)).data = A.data ++ xs from rfl,
      acronymSplit_run hA.1 xs (fun c hc => (hxs c hc).2)]
    simp [string_mk_data, List.map_map]
    rw [show ((fun p => some (String.mk p)) ∘ fun c => [c]) =
      (some ∘ fun c => String.mk [c]) from rfl, List.filterMap_eq_map]
  · rw [parse_body_words, segment_low_up_cap hu hF hv, letterRunLoop]
    rw [loopF_single_run [A] _ u (String.mk (A.data ++ xs)) v (by simp)
      (is_upper_false_of_lowerWord hu) (is_upper_of_upperWord hF)
      (is_upper_false_of_capWord hv)]
    rw [show (String.mk (A.data ++ xs)).data = A.data ++ xs from rfl,
      acronymSplit_run hA.1 xs (fun c hc => (hxs c hc).2)]
    show Word.mk (String.mk A.data) (normalize_word (String.mk A.data) [A]) =
      Word.mk A A
    rw [string_mk_data, normalize_word_self_acronym hA [A]
      (List.mem_cons_self _ _)]

end CaseConversion

namespace CaseConversion

/-- C5 witness at `"foo" ++ "HTTPXY" ++ "World"` with acronym list
`["HTTP"]`: the matched prefix HTTP is one Word normalized verbatim, the
trailing X and Y become separate words. -/
theorem advanced_prefix_match_verbatim_witness :
    ∃ pd, parse_case ("foo" ++ String.mk ("HTTP".data ++ ['X', 'Y']) ++ "World")
        (some ["HTTP"]) = .ok pd ∧
      pd.words.map Word.original_word =
        ["foo", "HTTP"] ++ ['X', 'Y'].map (fun c => String.mk [c]) ++ ["World"] ∧
      pd.words.getD 1 (Word.mk "" "") = Word.mk "HTTP" "HTTP" :=
  advanced_prefix_match_verbatim "foo" "HTTP" ['X', 'Y'] "World"
    (by decide) (by decide) (by decide) (by decide)

theorem sanitize_error_of_invalid :
    ∀ (acr : List String) (a : String), a ∈ acr →
      (∃ ch ∈ a.data, ch.isAlpha = false) →
      ∃ e, sanitize_acronyms acr = .error e := by
  intro acr
  induction acr with
  | nil =>
    intro a ha _
    exact absurd ha (List.not_mem_nil a)
  | cons b rest ih =>
    intro a ha hbad
    have hunfold : sanitize_acronyms (b :: rest) =
        if b.data.all Char.isAlpha then
          match sanitize_acronyms rest with
          | .ok r => .ok (str_toUpper b :: r)
          | .error e => .error e
        else .error (.invalidAcronym b) := rfl
    by_cases hb : b.data.all Char.isAlpha = true
    · have ha' : a ∈ rest := by
        rcases List.mem_cons.mp ha with h | h
        · exfalso
          obtain ⟨ch, hch, hchf⟩ := hbad
          have := List.all_eq_true.mp hb ch (h ▸ hch)
          rw [hchf] at this
          exact absurd this (by simp)
        · exact h
      obtain ⟨e, he⟩ := ih a ha' hbad
      refine ⟨e, ?_⟩
      rw [hunfold, if_pos hb, he]
    · refine ⟨.invalidAcronym b, ?_⟩
      rw [hunfold, if_neg hb]

/-- C2: any acronym list containing an entry with a non-letter character makes
`parse_case` fail with `InvalidAcronymError`, for every input string (the
error does not depend on the input being segmented), and the error is
returned to the caller rather than being corrected away. -/
theorem parse_case_invalid_acronym (s : String) (acr : List String)
    (a : String) (ha : a ∈ acr) (hbad : ∃ ch ∈ a.data, ch.isAlpha = false) :
    ∃ e, parse_case s (some acr) = .error e := by
  obtain ⟨e, he⟩ := sanitize_error_of_invalid acr a ha hbad
  have hne : acr.isEmpty = false := by
    rcases acr with _ | ⟨b, r⟩
    · exact absurd ha (List.not_mem_nil a)
    · rfl
  refine ⟨e, ?_⟩
  rw [parse_case]
  simp only [hne, Bool.false_eq_true, if_false, he]

/-- C2 witness: `["HT-TP"]` makes `parse_case` error on the input
`"sample"`. -/
theorem parse_case_invalid_acronym_witness :
    ∃ e, parse_case "sample" (some ["HT-TP"]) = .error e :=
  parse_case_invalid_acronym "sample" ["HT-TP"] "HT-TP"
    (by decide) (by decide)

/-- C8: a string whose separator characters are all of one kind is reported
with exactly that separator kind, and a string with no separator characters
is reported with the empty separator. -/
theorem segment_separator_exclusive (s : String) (c : Char) :
    ((∃ d ∈ s.data, isSep d = true) →
      (∀ d ∈ s.data, isSep d = true → d = c) →
      (segment_string s).2.1 = String.mk [c]) ∧
    ((∀ d ∈ s.data, isSep d = false) → (segment_string s).2.1 = "") := by
  constructor
  · intro hex hall
    show detected_separator s = _
    rcases hf : s.data.find? (fun x => isSep x) with _ | d
    · exfalso
      obtain ⟨d, hd, hds⟩ := hex
      have := List.find?_eq_none.mp hf d hd
      rw [hds] at this
      exact this rfl
    · have hpd : isSep d = true := List.find?_some hf
      have hmem : d ∈ s.data := List.mem_of_find?_eq_some hf
      rw [detected_separator, hf, hall d hmem hpd]
  · intro hnone
    show detected_separator s = _
    rw [detected_separator,
      List.find?_eq_none.mpr (fun a ha => by simp [hnone a ha])]

/-- C8 witness: `"foo_bar"` reports the underscore, `"fooBar"` reports the
empty separator. -/
theorem segment_separator_exclusive_witness :
    (segment_string "foo_bar").2.1 = String.mk ['_'] ∧
      (segment_string "fooBar").2.1 = "" :=
  ⟨(segment_separator_exclusive "foo_bar" '_').1 (by decide) (by decide),
    (segment_separator_exclusive "fooBar" '_').2 (by decide)⟩

end CaseConversion

namespace CaseConversion

theorem parse_case_some (s : String) (l : List String) :
    parse_case s (some l) =
      if l.isEmpty then
        .ok (parse_body (segment_string s).1 (segment_string s).2.1
          (segment_string s).2.2 s [] false)
      else
        match sanitize_acronyms l with
        | .ok sanitized =>
          .ok (parse_body (segment_string s).1 (segment_string s).2.1
            (segment_string s).2.2 s sanitized true)
        | .error e => .error e := rfl

theorem parse_case_ok_shape (s : String) (acr : Option (List String))
    (pd : ParseData) (h : parse_case s acr = .ok pd) :
    ∃ acl adv, pd = parse_body (segment_string s).1 (segment_string s).2.1
      (segment_string s).2.2 s acl adv := by
  rcases acr with _ | l
  · rw [parse_case_none] at h
    exact ⟨[], false, (Except.ok.inj h).symm⟩
  · rw [parse_case_some] at h
    by_cases hl : l.isEmpty = true
    · rw [if_pos hl] at h
      exact ⟨[], false, (Except.ok.inj h).symm⟩
    · rw [if_neg hl] at h
      rcases hsan : sanitize_acronyms l with e | sl
      · rw [hsan] at h
        exact absurd h (by simp)
      · rw [hsan] at h
        exact ⟨sl, true, (Except.ok.inj h).symm⟩

theorem parse_case_case_eq (s : String) (acr : Option (List String))
    (pd : ParseData) (h : parse_case s acr = .ok pd) :
    pd.original_case =
      determine_case (string_isupper s) (pd.words.map Word.original_word) s := by
  obtain ⟨acl, adv, rfl⟩ := parse_case_ok_shape s acr pd h
  rw [parse_body_case, parse_body_words_orig]
  rfl

/-- C3: the case classification of every successful parse follows the decision
tree of the spec, judged on the parsed word list and the original string: no
words, UNKNOWN; fully uppercase original, UPPER; fully lowercase original,
LOWER; lowercase-starting first word with uppercase-starting later words,
CAMEL; all words uppercase-starting, PASCAL; anything else, MIXED.  The
classification is a total function of the parse, so exactly one value is
produced. -/
theorem parse_case_classification (s : String) (acr : Option (List String))
    (pd : ParseData) (h : parse_case s acr = .ok pd) :
    (pd.words.map Word.original_word = [] →
      pd.original_case = Case.UNKNOWN) ∧
    (∀ w rest, pd.words.map Word.original_word = w :: rest →
      (string_isupper s = true → pd.original_case = Case.UPPER) ∧
      (string_isupper s = false → string_islower s = true →
        pd.original_case = Case.LOWER) ∧
      (string_isupper s = false → string_islower s = false →
        startsLower w = true → rest.all startsUpper = true →
        pd.original_case = Case.CAMEL) ∧
      (string_isupper s = false → string_islower s = false →
        startsUpper w = true → rest.all startsUpper = true →
        pd.original_case = Case.PASCAL) ∧
      (string_isupper s = false → string_islower s = false →
        ¬(startsLower w = true ∧ rest.all startsUpper = true) →
        ¬(startsUpper w = true ∧ rest.all startsUpper = true) →
        pd.original_case = Case.MIXED)) := by
  have hc := parse_case_case_eq s acr pd h
  constructor
  · intro hw
    rw [hc, hw, determine_case_nil]
  · intro w rest hw
    rw [hc, hw, determine_case_cons]
    refine ⟨?_, ?_, ?_, ?_, ?_⟩
    · intro hup
      rw [if_pos hup]
    · intro hup hlow
      rw [if_neg (by simp [hup]), if_pos hlow]
    · intro hup hlow h1 h2
      rw [if_neg (by simp [hup]), if_neg (by simp [hlow]),
        if_pos (by rw [h1, h2]; rfl)]
    · intro hup hlow h1 h2
      rw [if_neg (by simp [hup]), if_neg (by simp [hlow]),
        if_neg (by rw [startsLower_false_of_startsUpper h1]; simp),
        if_pos (by rw [h1, h2]; rfl)]
    · intro hup hlow h1 h2
      rw [if_neg (by simp [hup]), if_neg (by simp [hlow]),
        if_neg (by rw [Bool.and_eq_true]; exact h1),
        if_neg (by rw [Bool.and_eq_true]; exact h2)]

/-- C3 witness at the input `"foo_bar"`, which classifies as LOWER. -/
theorem parse_case_classification_witness :
    (ParseData.mk [Word.mk "foo" "Foo", Word.mk "bar" "Bar"]
      Case.LOWER "_").original_case = Case.LOWER := by
  have h := (parse_case_classification "foo_bar" none
    (ParseData.mk [Word.mk "foo" "Foo", Word.mk "bar" "Bar"] Case.LOWER "_")
    rfl).2 "foo" ["bar"] (by decide)
  exact h.2.1 (by decide) (by decide)

end CaseConversion

namespace CaseConversion

theorem loop_id_of_chain {tokens : List (Option String)}
    (h : List.Chain' (fun a b => optUpper a = true → optUpper b = false)
      tokens) :
    letterRunLoop [] false tokens = tokens := by
  rw [letterRunLoop]
  exact loopF_noAdj [] (tokens.length + 1) tokens 0 0 (by omega)
    (chain_to_indexed h) (Or.inl rfl)

theorem loop_id_of_nonupper {tokens : List (Option String)}
    (h : ∀ x ∈ tokens, optUpper x = false) :
    letterRunLoop [] false tokens = tokens := by
  rw [letterRunLoop]
  exact loopF_noAdj [] (tokens.length + 1) tokens 0 0 (by omega)
    (noAdj_of_all_nonupper h) (Or.inl rfl)

theorem snake_words (s : String) :
    Converter_snake s none = .ok (joinWith "_"
      (((letterRunLoop [] false (segment_string s).1).filterMap id).map
        (fun w => str_toLower (capitalize w)))) := by
  rw [Converter_snake, parse_case_none]
  show Except.ok (joinWith "_" ((parse_body (segment_string s).1
    (segment_string s).2.1 (segment_string s).2.2 s [] false).words.map
    (fun w => str_toLower w.normalized_word))) = _
  rw [parse_body_words, List.map_map]
  rfl

theorem filterMap_map_some (l : List String) :
    (l.map some).filterMap id = l := by
  induction l with
  | nil => rfl
  | cons x l' ih =>
    show x :: (l'.map some).filterMap id = x :: l'
    rw [ih]

/-- C9: parsing a string made of uniformly cased ASCII words joined by a
single separator kind, or a camel style string (lowercase first word followed
by capitalized words), and reassembling the parsed words with the snake join
rule reproduces the input up to the snake style canonicalization: the result
is exactly the lowercased words joined by underscores. -/
theorem snake_roundtrip :
    (∀ (ws : List String) (c : Char), ws ≠ [] → (∀ w ∈ ws, atomicWord w) →
      isSep c = true →
      Converter_snake (joinWith (String.mk [c]) ws) none =
        .ok (joinWith "_" (ws.map str_toLower))) ∧
    (∀ (w0 : String) (caps : List String), lowerWord w0 →
      (∀ w ∈ caps, capWord w) →
      Converter_snake (joinWith "" (w0 :: caps)) none =
        .ok (joinWith "_" ((w0 :: caps).map str_toLower))) := by
  constructor
  · intro ws c hne hall hc
    rw [snake_words]
    have htok : (segment_string (joinWith (String.mk [c]) ws)).1 =
        (ws.map some).intersperse none := seg_join_sep ws hall hc hne
    rw [htok, loop_id_of_chain (chain_intersperse ws), filterMap_intersperse,
      List.map_congr_left (fun w _ => str_toLower_capitalize w)]
  · intro w0 caps hw0 hcaps
    rw [snake_words]
    have htok : (segment_string (joinWith "" (w0 :: caps))).1 =
        (w0 :: caps).map some := by
      show segGo [] (joinWith "" (w0 :: caps)).data = _
      rw [joinWith_empty_data, List.map_cons, List.flatten_cons,
        segGo_word_start (Or.inl hw0)]
      obtain ⟨q, qrest, hq, hql⟩ := lowerWord_reverse_shape hw0
      rw [hq, seg_caps caps q qrest hcaps hql, ← hq, List.reverse_reverse,
        string_mk_data]
      rfl
    have hnoup : ∀ x ∈ (w0 :: caps).map some, optUpper x = false := by
      intro x hx
      obtain ⟨w, hw, hxw⟩ := List.mem_map.mp hx
      rw [← hxw]
      rcases List.mem_cons.mp hw with h | h
      · rw [h]
        exact is_upper_false_of_lowerWord hw0
      · exact is_upper_false_of_capWord (hcaps w h)
    rw [htok, loop_id_of_nonupper hnoup, filterMap_map_some,
      List.map_congr_left (fun w _ => str_toLower_capitalize w)]

/-- C9 witness: dot separated and camel inputs rendered to snake. -/
theorem snake_roundtrip_witness :
    Converter_snake (joinWith (String.mk ['.']) ["foo", "BAR"]) none =
      .ok (joinWith "_" (["foo", "BAR"].map str_toLower)) ∧
    Converter_snake (joinWith "" ["foo", "Bar"]) none =
      .ok (joinWith "_" (["foo", "Bar"].map str_toLower)) :=
  ⟨snake_roundtrip.1 ["foo", "BAR"] '.' (by decide) (by decide) (by decide),
    snake_roundtrip.2 "foo" ["Bar"] (by decide) (by decide)⟩

end CaseConversion
